import Mathlib

/-!
Verification of the font-resolution cache of `src/FontCache.cc` (OpenSCAD).

The development shallowly embeds the cache store (`FontCache::get_font`,
`FontCache::check_cleanup`, `FontCache::find_face`), the charmap-selection
fallback chain (`FontCache::find_face_fontconfig` tail, `FontCache::try_charmap`,
`FontCache::is_windows_symbol_font`) and the `FontInfo::operator<` comparison.

External engines (fontconfig pattern matching, FreeType face loading) are out
of scope of the source core and are modelled as oracle functions: `resolve`
stands for `find_face_fontconfig` in the cache claims, and `CharmapEnv`
packages the outcomes of `FT_Select_Charmap` / `FT_Set_Charmap` for the
charmap claims.

Face handles (`FontFacePtr`) are abstracted as `Nat` identities and
timestamps (`std::time_t`) as `Nat`; the cache member
(`std::map<std::string, cache_entry_t>` declared in the header, which is not
part of the sources at hand) is represented by its iteration sequence, an
association list of `(key, (face, last-access time))` triples.
-/

/-! ## Whitespace trimming (boost::algorithm::trim) -/

/-- Classic-locale `isspace`, the predicate used by `boost::algorithm::trim`. -/
def isSpaceChar (c : Char) : Bool :=
  c = ' ' || c = '\t' || c = '\n' || c = '\x0b' || c = '\x0c' || c = '\r'

/-- Drop leading whitespace. -/
def dropLead (l : List Char) : List Char :=
  l.dropWhile isSpaceChar

/-- Drop trailing whitespace. -/
def dropTrail (l : List Char) : List Char :=
  (l.reverse.dropWhile isSpaceChar).reverse

/-- `boost::algorithm::trim` on the character sequence: strip both ends. -/
def trimList (l : List Char) : List Char :=
  dropTrail (dropLead l)

/-- `boost::algorithm::trim` on strings. -/
def trimString (s : String) : String :=
  String.mk (trimList s.data)

/-! ## The cache data model -/

/-- `cache_entry_t`: a loaded face handle (abstract identity) and the
last-access timestamp `std::time_t`. -/
abbrev CacheEntry := Nat × Nat

/-- The `std::map<std::string, cache_entry_t>` member, represented by its
iteration sequence. -/
abbrev Cache := List (String × CacheEntry)

/-- `this->cache.find(font)`: first entry with the given key. -/
def cfind : Cache → String → Option CacheEntry
  | [], _ => none
  | (k, e) :: rest, q => if k = q then some e else cfind rest q

/-- `this->cache[font] = e`: overwrite the entry in place if the key is
present, otherwise insert a new entry. -/
def cstore : Cache → String → CacheEntry → Cache
  | [], q, e => [(q, e)]
  | (k, e0) :: rest, q, e =>
    if k = q then (q, e) :: rest else (k, e0) :: cstore rest q e

/-- The scan loop of `FontCache::check_cleanup`: walk the remaining entries
(at positions `i`, `i+1`, ...) keeping the position `best` of the smallest
timestamp seen so far (`bestTs`); `pos` moves only on a strictly smaller
timestamp, so the first entry holding the minimum wins. -/
def scanMinIdx (bestTs best i : Nat) : Cache → Nat
  | [] => best
  | (_, _, ts) :: rest =>
    if bestTs > ts then scanMinIdx ts i (i + 1) rest
    else scanMinIdx bestTs best (i + 1) rest

/-- Position of the first entry with minimal last-access timestamp
(`pos` after the loop in `FontCache::check_cleanup`; `pos` starts at
`begin()`). -/
def findMinIdx : Cache → Nat
  | [] => 0
  | (_, _, ts) :: rest => scanMinIdx ts 0 1 rest

/-- `FontCache::check_cleanup`: do nothing below capacity, otherwise erase
the first entry with the minimal last-access timestamp.  `maxE` is the
configured constant `MAX_NR_OF_CACHE_ENTRIES` (declared in the header). -/
def check_cleanup (maxE : Nat) (c : Cache) : Cache :=
  if c.length < maxE then c else c.eraseIdx (findMinIdx c)

/-- `FontCache::DEFAULT_FONT`. -/
def DEFAULT_FONT : String := "Liberation Sans:style=Regular"

/-- The `lookup` local of `FontCache::find_face`: the trimmed query, or
`DEFAULT_FONT` when the trimmed query is empty. -/
def lookupKey (font : String) : String :=
  let trimmed := trimString font
  if trimmed = "" then DEFAULT_FONT else trimmed

/-- `FontCache::find_face`: trim/default the query and resolve it.
`resolve` is the oracle standing for `find_face_fontconfig` (external
fontconfig matching + FreeType loading). -/
def find_face (resolve : String → Option Nat) (font : String) : Option Nat :=
  resolve (lookupKey font)

/-- `FontCache::get_font`: look up by the raw query string; on a miss,
resolve (returning not-found on failure, with the cache untouched) and run
the eviction check before storing; on hit or successful miss, store the face
under the raw query with the current time `now`. -/
def get_font (resolve : String → Option Nat) (maxE now : Nat) (c : Cache)
    (font : String) : Option Nat × Cache :=
  match cfind c font with
  | none =>
    match find_face resolve font with
    | none => (none, c)
    | some face => (some face, cstore (check_cleanup maxE c) font (face, now))
  | some e => (some e.1, cstore c font (e.1, now))

/-- Run a sequence of `get_font` calls, each given as (query, time of the
call), threading the cache. -/
def runInserts (resolve : String → Option Nat) (maxE : Nat) :
    List (String × Nat) → Cache → Cache
  | [], c => c
  | (k, t) :: rest, c => runInserts resolve maxE rest (get_font resolve maxE t c k).2

/-! ## Basic lemmas about the association-list cache -/

theorem cfind_eq_none_iff (c : Cache) (q : String) :
    cfind c q = none ↔ q ∉ c.map Prod.fst := by
  induction c with
  | nil => simp [cfind]
  | cons h rest ih =>
    obtain ⟨k, e⟩ := h
    by_cases hk : k = q
    · subst hk; simp [cfind]
    · simp [cfind, hk, ih, Ne.symm hk]

theorem cfind_append (c1 c2 : Cache) (q : String) :
    cfind (c1 ++ c2) q =
      (match cfind c1 q with
       | some e => some e
       | none => cfind c2 q) := by
  induction c1 with
  | nil => simp [cfind]
  | cons h rest ih =>
    obtain ⟨k, e⟩ := h
    by_cases hk : k = q <;> simp [cfind, hk, ih]

theorem cstore_of_none {c : Cache} {q : String} (e : CacheEntry)
    (h : cfind c q = none) : cstore c q e = c ++ [(q, e)] := by
  induction c with
  | nil => simp [cstore]
  | cons hd rest ih =>
    obtain ⟨k, e0⟩ := hd
    by_cases hk : k = q
    · simp [cfind, hk] at h
    · simp [cfind, hk] at h
      simp [cstore, hk, ih h]

theorem cfind_cstore_self (c : Cache) (q : String) (e : CacheEntry) :
    cfind (cstore c q e) q = some e := by
  induction c with
  | nil => simp [cstore, cfind]
  | cons hd rest ih =>
    obtain ⟨k, e0⟩ := hd
    by_cases hk : k = q <;> simp [cstore, cfind, hk, ih]

theorem cfind_cstore_ne (c : Cache) {q q' : String} (e : CacheEntry)
    (h : q' ≠ q) : cfind (cstore c q e) q' = cfind c q' := by
  induction c with
  | nil =>
    simp [cstore, cfind]
    exact Ne.symm h
  | cons hd rest ih =>
    obtain ⟨k, e0⟩ := hd
    by_cases hk : k = q
    · subst hk
      simp [cstore, cfind, Ne.symm h]
    · by_cases hk' : k = q' <;> simp [cstore, cfind, hk, hk', h, ih]

theorem length_cstore_of_some {c : Cache} {q : String} {e0 : CacheEntry}
    (e : CacheEntry) (h : cfind c q = some e0) :
    (cstore c q e).length = c.length := by
  induction c with
  | nil => simp [cfind] at h
  | cons hd rest ih =>
    obtain ⟨k, e1⟩ := hd
    by_cases hk : k = q
    · simp [cstore, hk]
    · simp [cfind, hk] at h
      simp [cstore, hk, ih h]

theorem keys_cstore_of_some {c : Cache} {q : String} {e0 : CacheEntry}
    (e : CacheEntry) (h : cfind c q = some e0) :
    (cstore c q e).map Prod.fst = c.map Prod.fst := by
  induction c with
  | nil => simp [cfind] at h
  | cons hd rest ih =>
    obtain ⟨k, e1⟩ := hd
    by_cases hk : k = q
    · subst hk; simp [cstore]
    · simp [cfind, hk] at h
      simp [cstore, hk, ih h]

theorem mem_of_cfind {c : Cache} {q : String} {e : CacheEntry}
    (h : cfind c q = some e) : (q, e) ∈ c := by
  induction c with
  | nil => simp [cfind] at h
  | cons hd rest ih =>
    obtain ⟨k, e0⟩ := hd
    by_cases hk : k = q
    · subst hk
      simp [cfind] at h
      simp [h]
    · simp [cfind, hk] at h
      exact List.mem_cons_of_mem _ (ih h)

theorem cfind_of_mem_nodup {c : Cache} {q : String} {e : CacheEntry}
    (hnd : (c.map Prod.fst).Nodup) (h : (q, e) ∈ c) : cfind c q = some e := by
  induction c with
  | nil => simp at h
  | cons hd rest ih =>
    obtain ⟨k, e0⟩ := hd
    simp only [List.map_cons, List.nodup_cons] at hnd
    rcases List.mem_cons.mp h with h1 | h1
    · rw [Prod.mk.injEq] at h1
      obtain ⟨h2, h3⟩ := h1
      subst h2; subst h3
      simp [cfind]
    · have hkq : k ≠ q := by
        intro hkq
        exact hnd.1 (hkq ▸ (List.mem_map.mpr ⟨(q, e), h1, rfl⟩))
      simp [cfind, hkq, ih hnd.2 h1]

theorem mem_cstore_of_mem_ne {c : Cache} {x : String × CacheEntry}
    {q : String} (e : CacheEntry) (hm : x ∈ c) (hne : x.1 ≠ q) :
    x ∈ cstore c q e := by
  induction c with
  | nil => simp at hm
  | cons hd rest ih =>
    obtain ⟨k, e0⟩ := hd
    by_cases hk : k = q
    · subst hk
      rcases List.mem_cons.mp hm with h1 | h1
      · exact absurd (congrArg Prod.fst h1) hne
      · simp [cstore, h1]
    · rcases List.mem_cons.mp hm with h1 | h1
      · simp [cstore, hk, h1]
      · simp only [cstore, hk, if_neg hk]
        exact List.mem_cons_of_mem _ (ih h1)

theorem mem_cstore_elim {c : Cache} {x : String × CacheEntry} {q : String}
    {e : CacheEntry} (hnd : (c.map Prod.fst).Nodup)
    (hm : x ∈ cstore c q e) : x = (q, e) ∨ (x ∈ c ∧ x.1 ≠ q) := by
  induction c with
  | nil =>
    simp [cstore] at hm
    exact Or.inl hm
  | cons hd rest ih =>
    obtain ⟨k, e0⟩ := hd
    simp only [List.map_cons, List.nodup_cons] at hnd
    by_cases hk : k = q
    · subst hk
      simp only [cstore, if_pos rfl] at hm
      rcases List.mem_cons.mp hm with h1 | h1
      · exact Or.inl h1
      · refine Or.inr ⟨List.mem_cons_of_mem _ h1, ?_⟩
        intro hx
        exact hnd.1 (hx ▸ (List.mem_map.mpr ⟨x, h1, rfl⟩))
    · simp only [cstore, if_neg hk] at hm
      rcases List.mem_cons.mp hm with h1 | h1
      · exact Or.inr ⟨List.mem_cons.mpr (Or.inl h1), by simp [h1, hk]⟩
      · rcases ih hnd.2 h1 with h2 | h2
        · exact Or.inl h2
        · exact Or.inr ⟨List.mem_cons_of_mem _ h2.1, h2.2⟩

theorem cfind_middle_ne (pre suf : Cache) (m : String × CacheEntry)
    {q : String} (h : q ≠ m.1) :
    cfind (pre ++ m :: suf) q = cfind (pre ++ suf) q := by
  induction pre with
  | nil =>
    obtain ⟨k, e⟩ := m
    simp only [List.nil_append, cfind]
    simp at h
    simp [Ne.symm h]
  | cons hd rest ih =>
    obtain ⟨k, e⟩ := hd
    by_cases hk : k = q <;> simp [cfind, hk, ih]

/-! ## Lemmas about trimming -/

theorem isSpaceChar_space : isSpaceChar ' ' = true := by decide

theorem dropLead_cons_space (l : List Char) : dropLead (' ' :: l) = dropLead l := by
  simp [dropLead, List.dropWhile_cons, isSpaceChar_space]

theorem dropTrail_append_space (l : List Char) :
    dropTrail (l ++ [' ']) = dropTrail l := by
  simp [dropTrail, List.reverse_append, List.dropWhile_cons, isSpaceChar_space]

theorem dropWhile_idem (p : α → Bool) (l : List α) :
    List.dropWhile p (List.dropWhile p l) = List.dropWhile p l := by
  induction l with
  | nil => rfl
  | cons x xs ih =>
    by_cases hx : p x = true <;> simp [List.dropWhile_cons, hx, ih]

theorem dropTrail_idem (l : List Char) : dropTrail (dropTrail l) = dropTrail l := by
  simp [dropTrail, List.reverse_reverse, dropWhile_idem]

theorem trimList_cons_space (l : List Char) : trimList (' ' :: l) = trimList l := by
  simp [trimList, dropLead_cons_space]

theorem trimList_append_space (l : List Char) :
    trimList (l ++ [' ']) = trimList l := by
  unfold trimList dropLead
  rw [List.dropWhile_append]
  by_cases h : (List.dropWhile isSpaceChar l).isEmpty = true
  · rw [if_pos h, List.isEmpty_iff.mp h]
    simp [dropTrail, List.dropWhile_cons, isSpaceChar_space]
  · rw [if_neg h]
    exact dropTrail_append_space _

theorem trimList_pad (l : List Char) :
    trimList ([' ', ' '] ++ l ++ [' ', ' ']) = trimList l := by
  have h1 : [' ', ' '] ++ l ++ [' ', ' '] = ' ' :: ' ' :: ((l ++ [' ']) ++ [' ']) := by
    simp
  rw [h1, trimList_cons_space, trimList_cons_space, trimList_append_space,
    trimList_append_space]

theorem dropLead_nil_or_head (l : List Char) :
    dropLead l = [] ∨ ∃ x xs, dropLead l = x :: xs ∧ isSpaceChar x = false := by
  induction l with
  | nil => exact Or.inl rfl
  | cons x xs ih =>
    by_cases hx : isSpaceChar x = true
    · simpa [dropLead, List.dropWhile_cons, hx] using ih
    · refine Or.inr ⟨x, xs, ?_, by simpa using hx⟩
      simp [dropLead, List.dropWhile_cons, hx]

theorem dropTrail_cons_of_not_space {x : Char} (xs : List Char)
    (hx : isSpaceChar x = false) : ∃ ys, dropTrail (x :: xs) = x :: ys := by
  unfold dropTrail
  rw [show (x :: xs).reverse = xs.reverse ++ [x] by simp, List.dropWhile_append]
  by_cases h : (List.dropWhile isSpaceChar xs.reverse).isEmpty = true
  · rw [if_pos h]
    exact ⟨[], by simp [List.dropWhile_cons, hx]⟩
  · rw [if_neg h]
    exact ⟨(List.dropWhile isSpaceChar xs.reverse).reverse, by simp⟩

theorem trimList_idem (l : List Char) : trimList (trimList l) = trimList l := by
  unfold trimList
  have h2 : dropLead (dropTrail (dropLead l)) = dropTrail (dropLead l) := by
    rcases dropLead_nil_or_head l with h | ⟨x, xs, hx, hsp⟩
    · rw [h]; rfl
    · rw [hx]
      obtain ⟨ys, hy⟩ := dropTrail_cons_of_not_space xs hsp
      rw [hy]
      simp [dropLead, List.dropWhile_cons, hsp]
  rw [h2, dropTrail_idem]

theorem two_spaces_data : ("  " : String).data = [' ', ' '] := by decide

theorem trimString_pad (q : String) :
    trimString ("  " ++ q ++ "  ") = trimString q := by
  unfold trimString
  rw [String.data_append, String.data_append, two_spaces_data]
  exact congrArg String.mk (by simpa using trimList_pad q.data)

theorem trimString_idem (q : String) :
    trimString (trimString q) = trimString q :=
  congrArg String.mk (trimList_idem q.data)

/-! ## Claims C5 and C10: miss-with-failure and hit frame conditions -/

/-- Claim C5: on a cache miss whose resolution fails, `get_font` returns
not-found (an absent face) and the cache is left exactly as it was: no entry
added or removed, no timestamp changed. -/
theorem C5_miss_failure_frame (resolve : String → Option Nat) (maxE now : Nat)
    (c : Cache) (font : String) (hmiss : cfind c font = none)
    (hfail : resolve (lookupKey font) = none) :
    get_font resolve maxE now c font = (none, c) := by
  simp [get_font, find_face, hmiss, hfail]

/-- Witness for C5 at a concrete input. -/
theorem C5_witness :
    get_font (fun _ => none) 3 5 [("a", 1, 1)] "b" = (none, [("a", 1, 1)]) :=
  C5_miss_failure_frame (fun _ => none) 3 5 [("a", 1, 1)] "b" (by decide) rfl

/-- Claim C10: on a cache hit (raw key present), `get_font` returns the
stored handle without invoking the resolver (the result is the same for
every resolver) and without running the eviction check (the conclusion holds
for every configured maximum, including one the cache has already reached):
the hit entry keeps its handle and gets timestamp `now`, every other entry
is untouched, and no entry is added or removed. -/
theorem C10_hit_frame (resolve : String → Option Nat) (maxE now : Nat)
    (c : Cache) (k : String) (f t : Nat) (hhit : cfind c k = some (f, t)) :
    get_font resolve maxE now c k = (some f, cstore c k (f, now))
    ∧ (cstore c k (f, now)).length = c.length
    ∧ cfind (cstore c k (f, now)) k = some (f, now)
    ∧ ∀ k', k' ≠ k → cfind (cstore c k (f, now)) k' = cfind c k' := by
  refine ⟨by simp [get_font, hhit], length_cstore_of_some _ hhit,
    cfind_cstore_self .., fun k' h => cfind_cstore_ne _ _ h⟩

/-- Witness for C10 at a concrete input: a full cache (`maxE = 2`, two
entries), a hit on `"a"` rewrites only that entry's timestamp and evicts
nothing. -/
theorem C10_witness :
    get_font (fun _ => none) 2 9 [("a", 1, 1), ("b", 2, 2)] "a"
      = (some 1, [("a", 1, 9), ("b", 2, 2)])
    ∧ cfind [("a", 1, 9), ("b", 2, 2)] "b" = cfind [("a", 1, 1), ("b", 2, 2)] "b" := by
  have h := C10_hit_frame (fun _ => none) 2 9 [("a", 1, 1), ("b", 2, 2)] "a" 1 1
    (by decide)
  exact ⟨h.1.trans (by decide), (h.2.2.2 "b" (by decide)).trans (by decide)⟩

/-! ## Claim C1: cache key normalization -/

/-- Claim C1, counterexample: the claim says `get_font` keys the cache by the
trimmed query, so resolving `"  a  "` and then resolving the trimmed `"a"`
must reuse one cache entry.  In the code the raw string is the key: the
first call stores the entry under `"  a  "`, and the second call is a miss
that creates a second entry, leaving two entries where the claim predicts
one. -/
theorem C1_counterexample :
    ((get_font (fun _ => some 1) 10 0 [] "  a  ").2).length = 1
    ∧ ((get_font (fun _ => some 1) 10 5
        ((get_font (fun _ => some 1) 10 0 [] "  a  ").2) "a").2).length = 2 := by
  constructor <;> decide

/-- Claim C1 as amended: the trimmed/defaulted key is the *resolver* lookup
key built in `find_face`, not the cache key.  Resolving `"  " ++ q ++ "  "`
and resolving the trimmed `q` use the same resolver lookup key; `""` and a
whitespace-only query use the default query as the resolver lookup key; the
cache entry, however, is stored under the raw untrimmed query string. -/
theorem C1_key_normalization :
    (∀ q : String, lookupKey ("  " ++ q ++ "  ") = lookupKey (trimString q))
    ∧ lookupKey "" = DEFAULT_FONT
    ∧ lookupKey "   " = DEFAULT_FONT
    ∧ (∀ (resolve : String → Option Nat) (maxE now : Nat) (c : Cache)
        (font : String) (f : Nat), cfind c font = none →
        resolve (lookupKey font) = some f →
        get_font resolve maxE now c font
          = (some f, cstore (check_cleanup maxE c) font (f, now))) := by
  refine ⟨fun q => ?_, by decide, by decide,
    fun resolve maxE now c font f hmiss hres => ?_⟩
  · unfold lookupKey
    rw [trimString_pad, trimString_idem]
  · simp [get_font, find_face, hmiss, hres]

/-- Witness for C1 (amended) at a concrete input: the entry lands under the
raw key `"  x  "`. -/
theorem C1_witness :
    get_font (fun _ => some 2) 3 9 [] "  x  " = (some 2, [("  x  ", 2, 9)]) := by
  have h := C1_key_normalization.2.2.2 (fun _ => some 2) 3 9 [] "  x  " 2 rfl rfl
  exact h.trans (by decide)

/-! ## Claim C4: behaviour after failed construction -/

/-- The state of the singleton: the `init_ok` flag set by the constructor and
the cache map. -/
structure FontCacheState where
  init_ok : Bool
  cache : Cache

/-- `FontCache::is_init_ok`. -/
def is_init_ok (st : FontCacheState) : Bool :=
  st.init_ok

/-- `FontCache::get_font` acting on the full state.  The source of
`get_font` never reads `init_ok`; the state is threaded unchanged apart from
the cache. -/
def get_font_state (resolve : String → Option Nat) (maxE now : Nat)
    (st : FontCacheState) (font : String) : Option Nat × FontCacheState :=
  let r := get_font resolve maxE now st.cache font
  (r.1, { init_ok := st.init_ok, cache := r.2 })

/-- Claim C4, counterexample: nothing in `get_font` consults `is_init_ok`.
With `init_ok = false`, a resolution call still runs the full resolver
pipeline, and under an environment in which the resolver produces a face the
call returns that face instead of the claimed unconditional not-found. -/
theorem C4_counterexample :
    is_init_ok (FontCacheState.mk false []) = false
    ∧ (get_font_state (fun _ => some 1) 3 0
        (FontCacheState.mk false []) "x").1 = some 1 := by
  constructor <;> decide

/-- Claim C4 as amended: `get_font` has no fail-fast check of `is_init_ok`;
after a failed construction the not-found outcome is contingent on the
uninitialized external engines failing every resolution.  Under the
modelling assumption that the resolver returns not-found for every query
(the behaviour of fontconfig/FreeType on the null handles left by a failed
constructor), every resolution call on the (still empty) cache returns
not-found and leaves the whole state unchanged. -/
theorem C4_failed_init (resolve : String → Option Nat) (maxE now : Nat)
    (st : FontCacheState) (font : String) (hinit : is_init_ok st = false)
    (hres : ∀ s, resolve s = none) (hcache : st.cache = []) :
    get_font_state resolve maxE now st font = (none, st) := by
  obtain ⟨b, c⟩ := st
  simp only [FontCacheState.mk.injEq] at hcache ⊢
  subst hcache
  simp [get_font_state, get_font, find_face, cfind, hres]

/-- Witness for C4 (amended) at a concrete input. -/
theorem C4_witness :
    get_font_state (fun _ => none) 3 0 (FontCacheState.mk false []) "x"
      = (none, FontCacheState.mk false []) :=
  C4_failed_init (fun _ => none) 3 0 (FontCacheState.mk false []) "x" rfl
    (fun _ => rfl) rfl

/-! ## The eviction scan: characterization of `findMinIdx` -/

theorem cfind_append_of_none {c1 : Cache} {q : String} (c2 : Cache)
    (h : cfind c1 q = none) : cfind (c1 ++ c2) q = cfind c2 q := by
  simp [cfind_append, h]

theorem cfind_append_of_some {c1 : Cache} {q : String} {e : CacheEntry}
    (c2 : Cache) (h : cfind c1 q = some e) : cfind (c1 ++ c2) q = some e := by
  simp [cfind_append, h]

theorem scanMinIdx_cons (bTs b i : Nat) (k : String) (f ts : Nat)
    (rest : Cache) :
    scanMinIdx bTs b i ((k, f, ts) :: rest)
      = if bTs > ts then scanMinIdx ts i (i + 1) rest
        else scanMinIdx bTs b (i + 1) rest := rfl

theorem findMinIdx_cons (k : String) (f ts : Nat) (rest : Cache) :
    findMinIdx ((k, f, ts) :: rest) = scanMinIdx ts 0 1 rest := rfl

theorem scanMin_le (l : Cache) : ∀ (bTs b i : Nat),
    (∀ x ∈ l, bTs ≤ x.2.2) → scanMinIdx bTs b i l = b := by
  induction l with
  | nil => intro bTs b i _; rfl
  | cons hd rest ih =>
    intro bTs b i h
    obtain ⟨k, f, ts⟩ := hd
    have h1 : bTs ≤ ts := h (k, f, ts) (List.mem_cons_self _ _)
    rw [scanMinIdx_cons, if_neg (Nat.not_lt.mpr h1)]
    exact ih _ _ _ (fun x hx => h x (List.mem_cons_of_mem _ hx))

theorem scanMin_lt (l : Cache) : ∀ (bTs b i : Nat),
    (∃ x ∈ l, x.2.2 < bTs) →
    ∃ pre e suf, l = pre ++ e :: suf
      ∧ scanMinIdx bTs b i l = i + pre.length
      ∧ e.2.2 < bTs
      ∧ (∀ x ∈ pre, e.2.2 < x.2.2)
      ∧ (∀ x ∈ suf, e.2.2 ≤ x.2.2) := by
  induction l with
  | nil =>
    intro bTs b i h
    obtain ⟨x, hx, _⟩ := h
    exact absurd hx (List.not_mem_nil x)
  | cons hd rest ih =>
    intro bTs b i h
    obtain ⟨k, f, ts⟩ := hd
    by_cases hts : ts < bTs
    · rw [scanMinIdx_cons, if_pos (show bTs > ts from hts)]
      by_cases hrest : ∃ x ∈ rest, x.2.2 < ts
      · obtain ⟨pre, e, suf, heq, hval, helt, hpre, hsuf⟩ := ih ts i (i + 1) hrest
        refine ⟨(k, f, ts) :: pre, e, suf, by rw [heq, List.cons_append],
          ?_, Nat.lt_trans helt hts, ?_, hsuf⟩
        · rw [hval, List.length_cons, Nat.add_assoc, Nat.add_comm 1 pre.length]
        · intro x hx
          rcases List.mem_cons.mp hx with h1 | h1
          · rw [h1]; exact helt
          · exact hpre x h1
      · have hge : ∀ x ∈ rest, ts ≤ x.2.2 :=
          fun x hx => Nat.le_of_not_lt (fun hlt => hrest ⟨x, hx, hlt⟩)
        rw [scanMin_le rest ts i (i + 1) hge]
        exact ⟨[], (k, f, ts), rest, rfl, rfl, hts,
          fun x hx => absurd hx (List.not_mem_nil x), hge⟩
    · rw [scanMinIdx_cons, if_neg (show ¬ bTs > ts from hts)]
      have hrest : ∃ x ∈ rest, x.2.2 < bTs := by
        obtain ⟨x, hx, hlt⟩ := h
        rcases List.mem_cons.mp hx with h1 | h1
        · rw [h1] at hlt; exact absurd hlt hts
        · exact ⟨x, h1, hlt⟩
      obtain ⟨pre, e, suf, heq, hval, helt, hpre, hsuf⟩ := ih bTs b (i + 1) hrest
      refine ⟨(k, f, ts) :: pre, e, suf, by rw [heq, List.cons_append],
        ?_, helt, ?_, hsuf⟩
      · rw [hval, List.length_cons, Nat.add_assoc, Nat.add_comm 1 pre.length]
      · intro x hx
        rcases List.mem_cons.mp hx with h1 | h1
        · rw [h1]
          exact Nat.lt_of_lt_of_le helt (Nat.le_of_not_lt hts)
        · exact hpre x h1

/-- Decomposition of a nonempty cache at the position chosen by the eviction
scan: the chosen entry has the minimal timestamp, every entry before it is
strictly larger (the first entry holding the minimum wins). -/
theorem findMin_decomp (hd : String × CacheEntry) (rest : Cache) :
    ∃ pre e suf, hd :: rest = pre ++ e :: suf
      ∧ findMinIdx (hd :: rest) = pre.length
      ∧ (∀ x ∈ pre, e.2.2 < x.2.2)
      ∧ (∀ x ∈ hd :: rest, e.2.2 ≤ x.2.2) := by
  obtain ⟨k, f, ts⟩ := hd
  by_cases h : ∃ x ∈ rest, x.2.2 < ts
  · obtain ⟨pre, e, suf, heq, hval, helt, hpre, hsuf⟩ := scanMin_lt rest ts 0 1 h
    refine ⟨(k, f, ts) :: pre, e, suf, by rw [heq, List.cons_append], ?_, ?_, ?_⟩
    · rw [findMinIdx_cons, hval, List.length_cons, Nat.add_comm 1 pre.length]
    · intro x hx
      rcases List.mem_cons.mp hx with h1 | h1
      · rw [h1]; exact helt
      · exact hpre x h1
    · intro x hx
      rcases List.mem_cons.mp hx with h1 | h1
      · rw [h1]
        exact Nat.le_of_lt helt
      · rw [heq] at h1
        rcases List.mem_append.mp h1 with h2 | h2
        · exact le_of_lt (hpre x h2)
        · rcases List.mem_cons.mp h2 with h3 | h3
          · rw [h3]
          · exact hsuf x h3
  · push_neg at h
    refine ⟨[], (k, f, ts), rest, rfl, ?_,
      fun x hx => absurd hx (List.not_mem_nil x), ?_⟩
    · rw [findMinIdx_cons]
      exact scanMin_le rest ts 0 1 h
    · intro x hx
      rcases List.mem_cons.mp hx with h1 | h1
      · rw [h1]
      · exact h x h1

theorem eraseIdx_append_middle (pre : Cache) (e : String × CacheEntry)
    (suf : Cache) : (pre ++ e :: suf).eraseIdx pre.length = pre ++ suf := by
  induction pre with
  | nil => rfl
  | cons hd rest ih => simp [List.eraseIdx, ih]

/-- If an entry is a strict unique minimum, the eviction scan picks it. -/
theorem findMin_unique {c : Cache} {x0 : String × CacheEntry} (hm : x0 ∈ c)
    (huniq : ∀ x ∈ c, x ≠ x0 → x0.2.2 < x.2.2) :
    ∃ pre suf, c = pre ++ x0 :: suf ∧ findMinIdx c = pre.length := by
  match c with
  | [] => simp at hm
  | hd :: rest =>
    obtain ⟨pre, e, suf, heq, hval, _, hmin⟩ := findMin_decomp hd rest
    have hec : e ∈ hd :: rest := by
      rw [heq]; exact List.mem_append.mpr (Or.inr (List.mem_cons_self _ _))
    by_cases hx : e = x0
    · subst hx
      exact ⟨pre, suf, heq, hval⟩
    · have h1 : x0.2.2 < e.2.2 := huniq e hec hx
      have h2 : e.2.2 ≤ x0.2.2 := hmin x0 hm
      exact absurd h1 (Nat.not_lt.mpr h2)

/-! ## Sequences of insertions -/

theorem runInserts_append (resolve : String → Option Nat) (maxE : Nat)
    (l1 l2 : List (String × Nat)) (c : Cache) :
    runInserts resolve maxE (l1 ++ l2) c
      = runInserts resolve maxE l2 (runInserts resolve maxE l1 c) := by
  induction l1 generalizing c with
  | nil => rfl
  | cons hd rest ih =>
    obtain ⟨k, t⟩ := hd
    simp [runInserts, ih]

/-- Filling an under-capacity cache with fresh, successfully resolved keys
appends one entry per key and evicts nothing. -/
theorem runInserts_fill (φ : String → Nat) (maxE : Nat) :
    ∀ (l : List (String × Nat)) (c : Cache),
      c.length + l.length ≤ maxE →
      (∀ kt ∈ l, cfind c kt.1 = none) →
      List.Nodup (l.map Prod.fst) →
      runInserts (fun s => some (φ s)) maxE l c
        = c ++ l.map (fun kt => (kt.1, φ (lookupKey kt.1), kt.2)) := by
  intro l
  induction l with
  | nil => intro c _ _ _; simp [runInserts]
  | cons hd rest ih =>
    intro c hlen hnone hnd
    obtain ⟨k, t⟩ := hd
    have hmiss : cfind c k = none := hnone (k, t) (List.mem_cons_self _ _)
    have hclean : check_cleanup maxE c = c := by
      rw [List.length_cons] at hlen
      unfold check_cleanup
      rw [if_pos (Nat.lt_of_lt_of_le
        (Nat.lt_add_of_pos_right (Nat.succ_pos rest.length)) hlen)]
    have hg : (get_font (fun s => some (φ s)) maxE t c k).2
        = c ++ [(k, φ (lookupKey k), t)] := by
      simp [get_font, find_face, hmiss, hclean, cstore_of_none _ hmiss]
    simp only [List.map_cons, List.nodup_cons] at hnd
    rw [List.length_cons] at hlen
    rw [runInserts, hg, ih (c ++ [(k, φ (lookupKey k), t)]) ?_ ?_ hnd.2]
    · simp
    · rw [List.length_append, List.length_singleton, Nat.add_assoc,
        Nat.add_comm 1 rest.length]
      exact hlen
    · intro kt hkt
      have hne : kt.1 ≠ k := by
        intro hk
        exact hnd.1 (hk ▸ List.mem_map.mpr ⟨kt, hkt, rfl⟩)
      rw [cfind_append_of_none _ (hnone kt (List.mem_cons_of_mem _ hkt))]
      simp [cfind, Ne.symm hne]

/-- The bounded-size scenario: starting from an empty cache with capacity
`N = front.length + 1`, inserting `N + 1` distinct, successfully resolved
keys `(k0, t0) :: front ++ [lst]` at strictly increasing times evicts
exactly the first (least recently accessed) key at the last insertion. -/
theorem lru_scenario (φ : String → Nat) (k0 : String) (t0 : Nat)
    (front : List (String × Nat)) (lst : String × Nat)
    (hnd : List.Nodup (((k0, t0) :: (front ++ [lst])).map Prod.fst))
    (hpair : List.Pairwise (· < ·) (((k0, t0) :: (front ++ [lst])).map Prod.snd)) :
    runInserts (fun s => some (φ s)) (front.length + 1)
        ((k0, t0) :: (front ++ [lst])) []
      = (front ++ [lst]).map (fun kt => (kt.1, φ (lookupKey kt.1), kt.2)) := by
  simp only [List.map_cons, List.map_append, List.map_cons, List.map_nil,
    List.nodup_cons, List.mem_append, List.mem_singleton,
    List.pairwise_cons] at hnd hpair
  obtain ⟨hk0, hndrest⟩ := hnd
  obtain ⟨ht0, _⟩ := hpair
  have hk0f : k0 ∉ front.map Prod.fst := fun h => hk0 (Or.inl h)
  have hk0l : k0 ≠ lst.1 := fun h => hk0 (Or.inr h)
  have hlf : lst.1 ∉ front.map Prod.fst := by
    rcases List.nodup_append.mp hndrest with ⟨_, _, hdisj⟩
    intro h
    exact hdisj h (List.mem_singleton.mpr rfl)
  have hndf : List.Nodup (front.map Prod.fst) := (List.nodup_append.mp hndrest).1
  have hsplit : (k0, t0) :: (front ++ [lst]) = ((k0, t0) :: front) ++ [lst] := by
    simp
  rw [hsplit, runInserts_append]
  have hfill : runInserts (fun s => some (φ s)) (front.length + 1)
      ((k0, t0) :: front) []
      = (k0, φ (lookupKey k0), t0)
        :: front.map (fun kt => (kt.1, φ (lookupKey kt.1), kt.2)) := by
    rw [runInserts_fill φ (front.length + 1) ((k0, t0) :: front) [] (by simp)
      (fun kt _ => rfl) (by simp [hk0f, hndf])]
    simp
  rw [hfill]
  have hkeys : (front.map (fun kt => (kt.1, φ (lookupKey kt.1), kt.2))).map Prod.fst
      = front.map Prod.fst := by
    rw [List.map_map]
    rfl
  have hmisslst : cfind ((k0, φ (lookupKey k0), t0)
      :: front.map (fun kt => (kt.1, φ (lookupKey kt.1), kt.2))) lst.1 = none := by
    rw [cfind_eq_none_iff]
    simp only [List.map_cons, hkeys]
    intro h
    rcases List.mem_cons.mp h with h1 | h1
    · exact hk0l h1.symm
    · exact hlf h1
  have hlen : ((k0, φ (lookupKey k0), t0)
      :: front.map (fun kt => (kt.1, φ (lookupKey kt.1), kt.2))).length
      = front.length + 1 := by simp
  have hmin0 : findMinIdx ((k0, φ (lookupKey k0), t0)
      :: front.map (fun kt => (kt.1, φ (lookupKey kt.1), kt.2))) = 0 := by
    simp only [findMinIdx]
    apply scanMin_le
    intro x hx
    rcases List.mem_map.mp hx with ⟨kt, hkt, hxe⟩
    have ht : t0 < kt.2 := ht0 kt.2 (Or.inl (List.mem_map.mpr ⟨kt, hkt, rfl⟩))
    rw [← hxe]
    exact Nat.le_of_lt ht
  have hclean : check_cleanup (front.length + 1) ((k0, φ (lookupKey k0), t0)
      :: front.map (fun kt => (kt.1, φ (lookupKey kt.1), kt.2)))
      = front.map (fun kt => (kt.1, φ (lookupKey kt.1), kt.2)) := by
    unfold check_cleanup
    rw [if_neg (by rw [hlen]; exact Nat.lt_irrefl _), hmin0]
    rfl
  have hmissf : cfind (front.map (fun kt => (kt.1, φ (lookupKey kt.1), kt.2)))
      lst.1 = none := by
    rw [cfind_eq_none_iff, hkeys]
    exact hlf
  show (get_font (fun s => some (φ s)) (front.length + 1) lst.2 _ lst.1).2
      = _
  simp only [get_font, find_face, hmisslst, hclean,
    cstore_of_none _ hmissf]
  simp

/-! ## Claim C2: bounded size and LRU eviction -/

/-- Claim C2: `check_cleanup` removes nothing below the configured maximum;
once the entry count has reached the maximum it removes exactly one entry,
one whose last-access timestamp is minimal over all entries, ties broken by
iteration order (the first entry holding the minimum wins); consequently,
after `N + 1` distinct successfully resolved keys are inserted at strictly
increasing times into an empty cache of maximum size `N = front.length + 1`,
the cache holds exactly the last `N` keys — the first (least recently
accessed) key was evicted. -/
theorem C2_bounded_lru_eviction :
    (∀ (maxE : Nat) (c : Cache), c.length < maxE → check_cleanup maxE c = c)
    ∧ (∀ (maxE : Nat) (c : Cache), c ≠ [] → maxE ≤ c.length →
        ∃ pre e suf, c = pre ++ e :: suf
          ∧ check_cleanup maxE c = pre ++ suf
          ∧ (∀ x ∈ pre, e.2.2 < x.2.2)
          ∧ (∀ x ∈ c, e.2.2 ≤ x.2.2))
    ∧ (∀ (φ : String → Nat) (k0 : String) (t0 : Nat)
        (front : List (String × Nat)) (lst : String × Nat),
        List.Nodup (((k0, t0) :: (front ++ [lst])).map Prod.fst) →
        List.Pairwise (· < ·) (((k0, t0) :: (front ++ [lst])).map Prod.snd) →
        runInserts (fun s => some (φ s)) (front.length + 1)
            ((k0, t0) :: (front ++ [lst])) []
          = (front ++ [lst]).map (fun kt => (kt.1, φ (lookupKey kt.1), kt.2))
        ∧ (runInserts (fun s => some (φ s)) (front.length + 1)
            ((k0, t0) :: (front ++ [lst])) []).length = front.length + 1
        ∧ cfind (runInserts (fun s => some (φ s)) (front.length + 1)
            ((k0, t0) :: (front ++ [lst])) []) k0 = none) := by
  refine ⟨fun maxE c h => by simp [check_cleanup, h], ?_, ?_⟩
  · intro maxE c hne hcap
    match c with
    | hd :: rest =>
      obtain ⟨pre, e, suf, heq, hval, hpre, hmin⟩ := findMin_decomp hd rest
      refine ⟨pre, e, suf, heq, ?_, hpre, hmin⟩
      unfold check_cleanup
      rw [if_neg (Nat.not_lt.mpr hcap), hval, heq, eraseIdx_append_middle]
  · intro φ k0 t0 front lst hnd hpair
    have hrun := lru_scenario φ k0 t0 front lst hnd hpair
    refine ⟨hrun, by rw [hrun]; simp, ?_⟩
    rw [hrun, cfind_eq_none_iff, List.map_map]
    have hkeys : ((front ++ [lst]).map
        (Prod.fst ∘ fun kt => (kt.1, φ (lookupKey kt.1), kt.2)))
        = (front ++ [lst]).map Prod.fst := rfl
    rw [hkeys]
    simp only [List.map_cons, List.nodup_cons] at hnd
    exact hnd.1

/-- Witness for C2 at a concrete input: capacity 2, three distinct keys
inserted at times 1, 2, 3; the final cache holds the last two keys and the
first key is gone. -/
theorem C2_witness :
    runInserts (fun _ => some 7) 2 [("a", 1), ("b", 2), ("c", 3)] []
      = [("b", 7, 2), ("c", 7, 3)]
    ∧ cfind (runInserts (fun _ => some 7) 2 [("a", 1), ("b", 2), ("c", 3)] []) "a"
      = none := by
  have h := C2_bounded_lru_eviction.2.2 (fun _ => 7) "a" 1 [("b", 2)] ("c", 3)
    (by decide) (by decide)
  exact ⟨h.1.trans (by decide), h.2.2⟩

/-! ## Claim C3: hit refresh and eviction under interleaved access -/

/-- With nodup keys, two members of the cache with the same key are the same
entry. -/
theorem mem_key_unique {c : Cache} (hnd : List.Nodup (c.map Prod.fst))
    {x y : String × CacheEntry} (hx : x ∈ c) (hy : y ∈ c) (hk : x.1 = y.1) :
    x = y := by
  have h1 : cfind c x.1 = some x.2 := cfind_of_mem_nodup hnd (by simpa using hx)
  have h2 : cfind c y.1 = some y.2 := cfind_of_mem_nodup hnd (by simpa using hy)
  rw [hk, h2] at h1
  exact Prod.ext hk (Option.some.injEq .. ▸ h1).symm

/-- Claim C3: every cache hit rewrites the hit entry's timestamp to the
current time; and for a full cache in which `(k1, f1, t1)` holds the unique
minimum timestamp and `(k2, f2, t2)` the second-smallest, re-accessing `k1`
(refreshing its timestamp to `now1`, larger than every stored timestamp)
before inserting a fresh key makes the insertion evict the entry that
originally held `t2`, not the re-accessed one. -/
theorem C3_refresh_protects_from_eviction :
    (∀ (resolve : String → Option Nat) (maxE now : Nat) (c : Cache)
        (k : String) (f t : Nat), cfind c k = some (f, t) →
        cfind ((get_font resolve maxE now c k).2) k = some (f, now))
    ∧ (∀ (resolve1 resolve2 : String → Option Nat) (maxE now1 now2 : Nat)
        (c : Cache) (k1 k2 knew : String) (f1 f2 t1 t2 fnew : Nat),
        List.Nodup (c.map Prod.fst) →
        (k1, f1, t1) ∈ c → (k2, f2, t2) ∈ c → k1 ≠ k2 →
        t1 < t2 →
        (∀ x ∈ c, x.1 ≠ k1 → x.1 ≠ k2 → t2 < x.2.2) →
        (∀ x ∈ c, x.2.2 < now1) →
        c.length = maxE →
        knew ∉ c.map Prod.fst →
        resolve2 (lookupKey knew) = some fnew →
        cfind ((get_font resolve2 maxE now2
            ((get_font resolve1 maxE now1 c k1).2) knew).2) k2 = none
        ∧ cfind ((get_font resolve2 maxE now2
            ((get_font resolve1 maxE now1 c k1).2) knew).2) k1 = some (f1, now1)
        ∧ cfind ((get_font resolve2 maxE now2
            ((get_font resolve1 maxE now1 c k1).2) knew).2) knew = some (fnew, now2)
        ∧ ((get_font resolve2 maxE now2
            ((get_font resolve1 maxE now1 c k1).2) knew).2).length = maxE) := by
  constructor
  · intro resolve maxE now c k f t hhit
    simp only [get_font, hhit]
    exact cfind_cstore_self ..
  · intro resolve1 resolve2 maxE now1 now2 c k1 k2 knew f1 f2 t1 t2 fnew
      hnd hmem1 hmem2 hk12 ht12 hsecond hnow hcap hknew hres2
    have hfind1 : cfind c k1 = some (f1, t1) := cfind_of_mem_nodup hnd hmem1
    have hc1 : (get_font resolve1 maxE now1 c k1).2 = cstore c k1 (f1, now1) := by
      simp [get_font, hfind1]
    have hkeys1 : (cstore c k1 (f1, now1)).map Prod.fst = c.map Prod.fst :=
      keys_cstore_of_some _ hfind1
    have hnd1 : List.Nodup ((cstore c k1 (f1, now1)).map Prod.fst) := by
      rw [hkeys1]; exact hnd
    have hmem2' : (k2, f2, t2) ∈ cstore c k1 (f1, now1) :=
      mem_cstore_of_mem_ne _ hmem2 (by simpa using Ne.symm hk12)
    have ht2now : t2 < now1 := hnow (k2, f2, t2) hmem2
    have huniq : ∀ x ∈ cstore c k1 (f1, now1), x ≠ (k2, f2, t2) → t2 < x.2.2 := by
      intro x hx hne
      rcases mem_cstore_elim hnd hx with h1 | ⟨hxc, hxk⟩
      · rw [h1]; exact ht2now
      · by_cases hk2 : x.1 = k2
        · exact absurd (mem_key_unique hnd hxc hmem2 hk2) hne
        · exact hsecond x hxc hxk hk2
    obtain ⟨pre, suf, hdec, hmin⟩ := findMin_unique hmem2' huniq
    have hlen1 : (cstore c k1 (f1, now1)).length = c.length :=
      length_cstore_of_some _ hfind1
    have hmissnew : cfind (cstore c k1 (f1, now1)) knew = none := by
      rw [cfind_eq_none_iff, hkeys1]; exact hknew
    have hclean : check_cleanup maxE (cstore c k1 (f1, now1)) = pre ++ suf := by
      unfold check_cleanup
      rw [if_neg (Nat.not_lt.mpr (Nat.le_of_eq (hlen1.trans hcap).symm)),
        hmin, hdec, eraseIdx_append_middle]
    have hk2pre : k2 ∉ (pre ++ suf).map Prod.fst := by
      have h1 : List.Nodup ((pre ++ (k2, f2, t2) :: suf).map Prod.fst) := by
        rw [← hdec]; exact hnd1
      simp only [List.map_append, List.map_cons] at h1
      rcases List.nodup_cons.mp (List.nodup_middle.mp h1) with ⟨h2, _⟩
      simpa using h2
    have hknew2 : knew ∉ (pre ++ suf).map Prod.fst := by
      intro h
      apply hknew
      rw [← hkeys1, hdec]
      simp only [List.map_append, List.map_cons] at h ⊢
      rcases List.mem_append.mp h with h1 | h1
      · exact List.mem_append.mpr (Or.inl h1)
      · exact List.mem_append.mpr (Or.inr (List.mem_cons_of_mem _ h1))
    have hmissnew2 : cfind (pre ++ suf) knew = none := by
      rw [cfind_eq_none_iff]; exact hknew2
    have hfinal : (get_font resolve2 maxE now2
        ((get_font resolve1 maxE now1 c k1).2) knew).2
        = (pre ++ suf) ++ [(knew, fnew, now2)] := by
      rw [hc1]
      simp [get_font, find_face, hmissnew, hres2, hclean,
        cstore_of_none _ hmissnew2]
    have hk2knew : k2 ≠ knew := by
      intro h
      apply hknew
      rw [← h]
      exact List.mem_map.mpr ⟨(k2, f2, t2), hmem2, rfl⟩
    have hfindk1 : cfind (pre ++ suf) k1 = some (f1, now1) := by
      have h1 : cfind (cstore c k1 (f1, now1)) k1 = some (f1, now1) :=
        cfind_cstore_self ..
      rw [hdec] at h1
      rwa [cfind_middle_ne pre suf (k2, f2, t2) (by simpa using hk12)] at h1
    have hk1knew : k1 ≠ knew := by
      intro h
      apply hknew
      rw [← h]
      exact List.mem_map.mpr ⟨(k1, f1, t1), hmem1, rfl⟩
    refine ⟨?_, ?_, ?_, ?_⟩
    · rw [hfinal, cfind_append_of_none _ (by rw [cfind_eq_none_iff]; exact hk2pre)]
      simp [cfind, Ne.symm hk2knew]
    · rw [hfinal, cfind_append_of_some _ hfindk1]
    · rw [hfinal, cfind_append_of_none _ hmissnew2]
      simp [cfind]
    · rw [hfinal, List.length_append, List.length_append, List.length_singleton]
      have h1 : (pre ++ (k2, f2, t2) :: suf).length = maxE := by
        rw [← hdec, hlen1, hcap]
      rw [List.length_append, List.length_cons] at h1
      rw [Nat.add_assoc]
      exact h1

/-- Witness for C3 at a concrete input: full cache of 3 entries with
timestamps 1 < 2 < 3; re-access the timestamp-1 entry `"a"` at time 10, then
insert `"d"` at time 11; `"b"` (originally the second-oldest) is evicted,
`"a"` survives with timestamp 10. -/
theorem C3_witness :
    cfind ((get_font (fun _ => some 4) 3 11
        ((get_font (fun _ => none) 3 10
          [("a", 1, 1), ("b", 2, 2), ("c", 3, 3)] "a").2) "d").2) "b" = none
    ∧ cfind ((get_font (fun _ => some 4) 3 11
        ((get_font (fun _ => none) 3 10
          [("a", 1, 1), ("b", 2, 2), ("c", 3, 3)] "a").2) "d").2) "a"
      = some (1, 10) := by
  have h := C3_refresh_protects_from_eviction.2 (fun _ => none) (fun _ => some 4)
    3 10 11 [("a", 1, 1), ("b", 2, 2), ("c", 3, 3)] "a" "b" "d" 1 2 1 2 4
    (by decide) (by decide) (by decide) (by decide) (by decide)
    (by decide) (by decide) (by decide) (by decide) rfl
  exact ⟨h.1, h.2.1⟩

/-! ## Charmap selection: `find_face_fontconfig` tail, `try_charmap`,
`is_windows_symbol_font` -/

/-- TrueType platform identifiers (FT_TRUETYPE_IDS_H). -/
def TT_PLATFORM_APPLE_UNICODE : Int := 0

def TT_PLATFORM_MACINTOSH : Int := 1

def TT_PLATFORM_ISO : Int := 2

def TT_PLATFORM_MICROSOFT : Int := 3

/-- TrueType encoding identifiers (FT_TRUETYPE_IDS_H). -/
def TT_MS_ID_SYMBOL_CS : Int := 0

def TT_MS_ID_UNICODE_CS : Int := 1

def TT_ISO_ID_7BIT_ASCII : Int := 0

def TT_ISO_ID_10646 : Int := 1

def TT_ISO_ID_8859_1 : Int := 2

def TT_MAC_ID_ROMAN : Int := 0

/-- A loaded FreeType face as seen by the charmap selector: the charmap
table (`face->charmaps[idx]` as (platform_id, encoding_id)) and the name
strings used in diagnostics. -/
structure LoadedFace where
  charmaps : List (Int × Int)
  family : String
  style : String

/-- Outcomes of the external engine calls: `selectUnicodeOk` is whether
`FT_Select_Charmap(face, ft_encoding_unicode)` returns 0, `setOk idx`
whether `FT_Set_Charmap(face, face->charmaps[idx])` returns 0. -/
structure CharmapEnv where
  selectUnicodeOk : Bool
  setOk : Nat → Bool

/-- The match test of `FontCache::try_charmap`:
`(charmap->platform_id == platform_id) && ((encoding_id < 0) ||
(charmap->encoding_id == encoding_id))`. -/
def charmapMatches (cm : Int × Int) (platform_id encoding_id : Int) : Bool :=
  cm.1 = platform_id && (encoding_id < 0 || cm.2 = encoding_id)

/-- The loop of `FontCache::try_charmap` from charmap index `idx`: on a
matching entry attempt `FT_Set_Charmap`; on activation success return that
index (the activated charmap), otherwise keep scanning. -/
def try_charmap_go (setOk : Nat → Bool) (platform_id encoding_id : Int) :
    Nat → List (Int × Int) → Option Nat
  | _, [] => none
  | idx, cm :: rest =>
    if charmapMatches cm platform_id encoding_id then
      if setOk idx then some idx
      else try_charmap_go setOk platform_id encoding_id (idx + 1) rest
    else try_charmap_go setOk platform_id encoding_id (idx + 1) rest

/-- `FontCache::try_charmap`; `some idx` means `true` was returned after
activating charmap `idx`, `none` means `false`. -/
def try_charmap (env : CharmapEnv) (face : LoadedFace)
    (platform_id encoding_id : Int) : Option Nat :=
  try_charmap_go env.setOk platform_id encoding_id 0 face.charmaps

/-- Outcome of the charmap-selection phase of
`FontCache::find_face_fontconfig` (lines 447-459): the built-in Unicode
selection succeeded, or a fallback charmap (by table index) was activated,
or no charmap could be selected and the given warning was logged. -/
inductive CharmapResult where
  | unicode
  | fallback (idx : Nat)
  | noCharmap (warning : String)

/-- The charmap-selection cascade of `FontCache::find_face_fontconfig`,
embedded statement by statement: `FT_Select_Charmap` first, then the
`if (!charmap_set) charmap_set = try_charmap(...)` chain, then the warning. -/
def select_charmap (env : CharmapEnv) (face : LoadedFace) : CharmapResult :=
  if env.selectUnicodeOk then .unicode
  else
    match try_charmap env face TT_PLATFORM_MICROSOFT TT_MS_ID_UNICODE_CS with
    | some i => .fallback i
    | none =>
      match try_charmap env face TT_PLATFORM_ISO TT_ISO_ID_10646 with
      | some i => .fallback i
      | none =>
        match try_charmap env face TT_PLATFORM_APPLE_UNICODE (-1) with
        | some i => .fallback i
        | none =>
          match try_charmap env face TT_PLATFORM_MICROSOFT TT_MS_ID_SYMBOL_CS with
          | some i => .fallback i
          | none =>
            match try_charmap env face TT_PLATFORM_MACINTOSH TT_MAC_ID_ROMAN with
            | some i => .fallback i
            | none =>
              match try_charmap env face TT_PLATFORM_ISO TT_ISO_ID_8859_1 with
              | some i => .fallback i
              | none =>
                match try_charmap env face TT_PLATFORM_ISO TT_ISO_ID_7BIT_ASCII with
                | some i => .fallback i
                | none => .noCharmap ("Could not select a char map for font "
                    ++ face.family ++ "/" ++ face.style)

/-- After the cascade, `find_face_fontconfig` executes `return face;`
unconditionally: the face is returned whatever the charmap outcome. -/
def charmap_phase (env : CharmapEnv) (face : LoadedFace) :
    CharmapResult × Option LoadedFace :=
  (select_charmap env face, some face)

/-- The exact fallback chain of (platform, encoding) pairs, in source
order; `-1` is the wildcard encoding. -/
def charmapChain : List (Int × Int) :=
  [(TT_PLATFORM_MICROSOFT, TT_MS_ID_UNICODE_CS),
   (TT_PLATFORM_ISO, TT_ISO_ID_10646),
   (TT_PLATFORM_APPLE_UNICODE, -1),
   (TT_PLATFORM_MICROSOFT, TT_MS_ID_SYMBOL_CS),
   (TT_PLATFORM_MACINTOSH, TT_MAC_ID_ROMAN),
   (TT_PLATFORM_ISO, TT_ISO_ID_8859_1),
   (TT_PLATFORM_ISO, TT_ISO_ID_7BIT_ASCII)]

/-- First-success iteration over a list of (platform, encoding) attempts. -/
def tryChain (env : CharmapEnv) (face : LoadedFace) :
    List (Int × Int) → Option Nat
  | [] => none
  | (p, e) :: rest =>
    match try_charmap env face p e with
    | some i => some i
    | none => tryChain env face rest

/-- Claim C6: when the built-in Unicode selection fails, exactly the seven
(platform, encoding) fallbacks of `charmapChain` are attempted in exactly
that order, stopping at the first success; if all fail, a warning naming the
face's family and style is emitted, and in every case the face is still
returned. -/
theorem C6_charmap_fallback_chain (env : CharmapEnv) (face : LoadedFace) :
    charmap_phase env face
      = ((if env.selectUnicodeOk then CharmapResult.unicode
          else
            match tryChain env face charmapChain with
            | some i => CharmapResult.fallback i
            | none => CharmapResult.noCharmap
                ("Could not select a char map for font "
                  ++ face.family ++ "/" ++ face.style)),
         some face) := by
  unfold charmap_phase select_charmap
  by_cases h : env.selectUnicodeOk = true
  · simp [h]
  · simp only [h, if_false, Bool.false_eq_true, charmapChain, tryChain]
    cases h1 : try_charmap env face TT_PLATFORM_MICROSOFT TT_MS_ID_UNICODE_CS with
    | some i => simp [h1]
    | none =>
      simp only [h1]
      cases h2 : try_charmap env face TT_PLATFORM_ISO TT_ISO_ID_10646 with
      | some i => simp [h2]
      | none =>
        simp only [h2]
        cases h3 : try_charmap env face TT_PLATFORM_APPLE_UNICODE (-1) with
        | some i => simp [h3]
        | none =>
          simp only [h3]
          cases h4 : try_charmap env face TT_PLATFORM_MICROSOFT TT_MS_ID_SYMBOL_CS with
          | some i => simp [h4]
          | none =>
            simp only [h4]
            cases h5 : try_charmap env face TT_PLATFORM_MACINTOSH TT_MAC_ID_ROMAN with
            | some i => simp [h5]
            | none =>
              simp only [h5]
              cases h6 : try_charmap env face TT_PLATFORM_ISO TT_ISO_ID_8859_1 with
              | some i => simp [h6]
              | none =>
                simp only [h6]
                cases h7 : try_charmap env face TT_PLATFORM_ISO TT_ISO_ID_7BIT_ASCII with
                | some i => simp [h7]
                | none => simp [h7]

/-! ## Claim C7: what a single try step does -/

/-- Modelled from the spec: a try step "scans the face's available charmap
table for the first entry matching (platform, encoding) — encoding may be
wildcarded — and attempts to activate it; only a successful activation
counts as success".  So only the first matching entry is attempted, and
the step succeeds exactly when activating that single entry succeeds. -/
def try_charmap_first_only (setOk : Nat → Bool) (cms : List (Int × Int))
    (platform_id encoding_id : Int) : Bool :=
  match List.findIdx? (fun cm => charmapMatches cm platform_id encoding_id) cms with
  | some i => setOk i
  | none => false

/-- Claim C7, counterexample: a face with two (Microsoft, Unicode-BMP)
charmaps whose first entry fails to activate while the second succeeds.
The code keeps scanning past the failed first match and reports success;
under the claim's first-match-only semantics the step reports failure. -/
theorem C7_counterexample :
    (try_charmap (CharmapEnv.mk false (fun i => i == 1))
        (LoadedFace.mk [(3, 1), (3, 1)] "fam" "sty") 3 1) = some 1
    ∧ try_charmap_first_only (fun i => i == 1) [(3, 1), (3, 1)] 3 1 = false := by
  constructor <;> decide

theorem try_charmap_go_spec (setOk : Nat → Bool) (p e : Int)
    (cms : List (Int × Int)) : ∀ idx : Nat,
    try_charmap_go setOk p e idx cms
      = ((List.enumFrom idx cms).find? (fun ic =>
          charmapMatches ic.2 p e && setOk ic.1)).map Prod.fst := by
  induction cms with
  | nil => intro idx; rfl
  | cons cm rest ih =>
    intro idx
    by_cases hm : charmapMatches cm p e = true
    · by_cases hs : setOk idx = true
      · simp [try_charmap_go, List.enumFrom, List.find?, hm, hs]
      · simp only [Bool.not_eq_true] at hs
        simp [try_charmap_go, List.enumFrom, List.find?, hm, hs, ih]
    · simp only [Bool.not_eq_true] at hm
      simp [try_charmap_go, List.enumFrom, List.find?, hm, ih]

/-- Claim C7 as amended: a try step scans, in table order, every entry
matching the platform and (unless wildcarded) the encoding, attempting to
activate each matching entry in turn; it reports success at the first
matching entry whose activation succeeds, and failure only if every
matching entry fails to activate. -/
theorem C7_try_charmap_scans_all_matches (env : CharmapEnv) (face : LoadedFace)
    (platform_id encoding_id : Int) :
    try_charmap env face platform_id encoding_id
      = (face.charmaps.enum.find? (fun ic =>
          charmapMatches ic.2 platform_id encoding_id && env.setOk ic.1)).map
          Prod.fst :=
  try_charmap_go_spec env.setOk platform_id encoding_id face.charmaps 0

/-! ## Claim C8: Windows symbol font detection -/

/-- `FontCache::is_windows_symbol_font`.  `charmap` is the face's active
charmap `face->charmap` as (platform_id, encoding_id); `firstChar` is the
result of `FT_Get_First_Char` as (charcode, gindex), where gindex 0 means
the charmap defines no character. -/
def is_windows_symbol_font (charmap : Int × Int) (firstChar : Nat × Nat) : Bool :=
  if charmap.1 ≠ TT_PLATFORM_MICROSOFT then false
  else if charmap.2 ≠ TT_MS_ID_SYMBOL_CS then false
  else if firstChar.2 = 0 ∨ firstChar.1 < 0xf000 then false
  else true

theorem ite_chain_false_true {A B C : Prop} [Decidable A] [Decidable B]
    [Decidable C] :
    ((if A then false else if B then false else if C then false else true)
      = true) ↔ (¬ A ∧ ¬ B ∧ ¬ C) := by
  by_cases hA : A <;> by_cases hB : B <;> by_cases hC : C <;>
    simp [hA, hB, hC]

/-- Claim C8: the detection returns true iff the active charmap is exactly
(Microsoft platform, Symbol encoding) and the face's first defined
character code (which must exist: gindex nonzero) is at least 0xF000. -/
theorem C8_windows_symbol_font_iff (charmap : Int × Int) (firstChar : Nat × Nat) :
    is_windows_symbol_font charmap firstChar = true
      ↔ (charmap.1 = TT_PLATFORM_MICROSOFT ∧ charmap.2 = TT_MS_ID_SYMBOL_CS
         ∧ firstChar.2 ≠ 0 ∧ 0xf000 ≤ firstChar.1) := by
  rw [is_windows_symbol_font, ite_chain_false_true, not_ne_iff, not_ne_iff,
    not_or, Nat.not_lt]

/-! ## Claim C9: the FontInfo comparison -/

/-- `FontInfo`: family, style, file path and pattern hash. -/
structure FontInfo where
  family : String
  style : String
  file : String
  hash : Nat

/-- `FontInfo::operator<`: early-return on `family <`, then early-return on
`style <` (without checking family equality), else `file <`. -/
def FontInfo.lt (a rhs : FontInfo) : Bool :=
  if a.family < rhs.family then true
  else if a.style < rhs.style then true
  else decide (a.file < rhs.file)

/-- Claim C9: the comparison returns true whenever `family < rhs.family`,
or (independently, with no family-equality check) whenever
`style < rhs.style`, and otherwise returns `file < rhs.file`; it is not a
strict total order: there are values `a`, `b` with both `a < b` and
`b < a`. -/
theorem C9_fontinfo_lt_not_strict_order :
    (∀ a b : FontInfo, a.family < b.family → FontInfo.lt a b = true)
    ∧ (∀ a b : FontInfo, a.style < b.style → FontInfo.lt a b = true)
    ∧ (∀ a b : FontInfo, ¬ a.family < b.family → ¬ a.style < b.style →
        (FontInfo.lt a b = true ↔ a.file < b.file))
    ∧ (∃ a b : FontInfo, FontInfo.lt a b = true ∧ FontInfo.lt b a = true) := by
  refine ⟨?_, ?_, ?_, ?_⟩
  · intro a b h
    simp [FontInfo.lt, h]
  · intro a b h
    unfold FontInfo.lt
    by_cases h1 : a.family < b.family <;> simp [h1, h]
  · intro a b h1 h2
    simp [FontInfo.lt, h1, h2]
  · refine ⟨FontInfo.mk "a" "z" "" 0, FontInfo.mk "b" "y" "" 0, ?_, ?_⟩
    · have h : ("a" : String) < "b" := by
        rw [String.lt_iff_toList_lt]; decide
      simp [FontInfo.lt, h]
    · have h1 : ¬ ("b" : String) < "a" := by
        rw [String.lt_iff_toList_lt]; decide
      have h2 : ("y" : String) < "z" := by
        rw [String.lt_iff_toList_lt]; decide
      simp [FontInfo.lt, h1, h2]

/-- Witness for C9 at a concrete input: `family "a" < family "b"` forces
the comparison to return true. -/
theorem C9_witness :
    FontInfo.lt (FontInfo.mk "a" "x" "f" 0) (FontInfo.mk "b" "x" "f" 0) = true :=
  C9_fontinfo_lt_not_strict_order.1 (FontInfo.mk "a" "x" "f" 0)
    (FontInfo.mk "b" "x" "f" 0) (by rw [String.lt_iff_toList_lt]; decide)
